import Mathlib

/-!
Least-squares intersection of detected line segments (the estimation stage of `main`).

A shallow embedding of the estimation stage of `main`: the loop that turns every
detected segment (`cv::Vec4i`) into one row of the system `A v = b`, the call to
`cv::solve(A, b, v, cv::DECOMP_SVD)` and the construction of `solutionPt`.

* Pixel coordinates are C++ `int`s; they are embedded as `Int`.  Signed overflow of
  `pt1.y - pt2.y` is undefined behaviour in C++, so the embedding covers the executions
  in which these differences fit in an `int`.
* `float` values are embedded as rationals.  Every place where the program produces a
  `float` (a conversion from `int`, a division, a product, a difference, a store into a
  `CV_32F` matrix) is wrapped in a rounding operator `fl : ℚ → ℚ`, one rounding for each
  operation.  Two instances are used: `f32`, round-to-nearest-even to IEEE-754 binary32,
  and `id`, exact arithmetic.
* `cv::solve` belongs to OpenCV; it is modelled by its contract (`cvSolve`, `lstsq`),
  and the model is shown to return the least-squares solution of least norm.
-/

namespace DetectLines

/-! ## binary32 rounding -/

/-- Number of halvings that bring `n` below 2 (the index of the leading bit of `n ≥ 1`);
the first argument bounds the number of steps. -/
def log2Fuel : Nat → Nat → Nat
  | 0, _ => 0
  | fuel + 1, n => if n < 2 then 0 else log2Fuel fuel (n / 2) + 1

/-- The rational `2 ^ k` for an integer exponent. -/
def pow2 (k : Int) : ℚ :=
  if 0 ≤ k then ((2 ^ k.toNat : Nat) : ℚ) else 1 / ((2 ^ (-k).toNat : Nat) : ℚ)

/-- The binade of a non-zero rational: the `e` with `2 ^ e ≤ |q| < 2 ^ (e + 1)`. -/
def ilog2 (q : ℚ) : Int :=
  let k : Int := (log2Fuel q.num.natAbs q.num.natAbs : Int) - (log2Fuel q.den q.den : Int)
  if pow2 k ≤ |q| then k else k - 1

/-- Nearest integer, ties to the even one. -/
def roundHalfEven (t : ℚ) : Int :=
  let f := Rat.floor t
  let r := t - f
  if r < 1 / 2 then f
  else if 1 / 2 < r then f + 1
  else if f % 2 = 0 then f else f + 1

/-- Round-to-nearest-even to binary32 (24-bit significand, least exponent -126 shared
with the subnormals).  Values of magnitude `2 ^ 128` and above, which binary32 turns
into infinities, do not arise from `int` coordinates and are not treated apart. -/
def f32 (q : ℚ) : ℚ :=
  if q = 0 then 0
  else
    let e := max (ilog2 q) (-126)
    let ulp := pow2 (e - 23)
    (roundHalfEven (q / ulp) : ℚ) * ulp

/-! ## Data -/

/-- A pixel position, `cv::Point`. -/
structure Point where
  x : Int
  y : Int
  deriving DecidableEq, Repr

/-- A detected segment, `cv::Vec4i`: the entries `[0] [1] [2] [3]`. -/
structure Vec4i where
  x1 : Int
  y1 : Int
  x2 : Int
  y2 : Int
  deriving DecidableEq, Repr

/-- The first end point, `cv::Point pt1((*iter)[0], (*iter)[1])`. -/
def pt1 (l : Vec4i) : Point := ⟨l.x1, l.y1⟩

/-- The second end point, `cv::Point pt2((*iter)[2], (*iter)[3])`. -/
def pt2 (l : Vec4i) : Point := ⟨l.x2, l.y2⟩

/-- One row of the system: `A(n,0)`, `A(n,1)` and `b(n,0)`, read as `a*x + c*y = d`. -/
structure Row where
  a : ℚ
  c : ℚ
  d : ℚ
  deriving DecidableEq, Repr

/-- The two entries of a row that are stored in `A`. -/
def Row.coeffs (r : Row) : ℚ × ℚ := (r.a, r.c)

/-! ## The constraint loop -/

/-- The slope `float m = ((float) (pt1.y - pt2.y)) / (pt1.x - pt2.x)`: the numerator is
converted to `float`, the `int` denominator is converted for the division, and the
quotient is rounded. -/
def slope (fl : ℚ → ℚ) (p q : Point) : ℚ :=
  fl (fl ((p.y - q.y : Int) : ℚ) / fl ((p.x - q.x : Int) : ℚ))

/-- The body of the constraint loop for one segment: the three values stored in row `n`. -/
def constraintRow (fl : ℚ → ℚ) (l : Vec4i) : Row :=
  if (pt1 l).x = (pt2 l).x then
    { a := 1, c := 0, d := fl ((pt1 l).x : ℚ) }
  else
    let m := slope fl (pt1 l) (pt2 l)
    { a := -m, c := 1, d := fl (fl ((pt1 l).y : ℚ) - fl (m * fl ((pt1 l).x : ℚ))) }

/-- The loop state: the matrices `A` (rows of two entries) and `b`, and the counter `n`. -/
structure Sys where
  A : List (ℚ × ℚ)
  b : List ℚ
  n : Nat

/-- The state before the loop: `cv::Mat A(lines.size(), 2, CV_32FC1)`,
`cv::Mat b(lines.size(), 1, CV_32FC1)` and `int n = 0`.  The entries are not initialised
by the program; they are zero here. -/
def allocSys (size : Nat) : Sys :=
  { A := List.replicate size (0, 0), b := List.replicate size 0, n := 0 }

/-- One iteration: write row `n` of `A` and of `b`, then `n++`. -/
def loopStep (fl : ℚ → ℚ) (s : Sys) (l : Vec4i) : Sys :=
  let r := constraintRow fl l
  { A := s.A.set s.n (r.a, r.c), b := s.b.set s.n r.d, n := s.n + 1 }

/-- The state after the loop has run over the first `k` segments. -/
def loopAfter (fl : ℚ → ℚ) (lines : List Vec4i) (k : Nat) : Sys :=
  (lines.take k).foldl (loopStep fl) (allocSys lines.length)

/-- The whole constraint loop. -/
def buildSystem (fl : ℚ → ℚ) (lines : List Vec4i) : Sys :=
  lines.foldl (loopStep fl) (allocSys lines.length)

/-! ## The solver and the solution point -/

/-- The ways the estimation step can fail. -/
inductive EstError where
  | InsufficientData
  | SolveFailed
  deriving DecidableEq, Repr

deriving instance DecidableEq for Except

/-- A system `A v = b` read row by row: the pairs of a row of `A` and the entry of `b`. -/
abbrev Eqns := List ((ℚ × ℚ) × ℚ)

/-- The sum of squared residuals `‖A v − b‖²` at the point `(x, y)`. -/
def ssr (z : Eqns) (x y : ℚ) : ℚ :=
  (z.map (fun r => (r.1.1 * x + r.1.2 * y - r.2) ^ 2)).sum

/-- Entry `Σ a²` of the normal equations `AᵀA v = Aᵀb`. -/
def sumAA (z : Eqns) : ℚ := (z.map (fun r => r.1.1 * r.1.1)).sum

/-- Entry `Σ a c` of the normal equations. -/
def sumAC (z : Eqns) : ℚ := (z.map (fun r => r.1.1 * r.1.2)).sum

/-- Entry `Σ c²` of the normal equations. -/
def sumCC (z : Eqns) : ℚ := (z.map (fun r => r.1.2 * r.1.2)).sum

/-- Entry `Σ a d` of the right-hand side `Aᵀb`. -/
def sumAD (z : Eqns) : ℚ := (z.map (fun r => r.1.1 * r.2)).sum

/-- Entry `Σ c d` of the right-hand side `Aᵀb`. -/
def sumCD (z : Eqns) : ℚ := (z.map (fun r => r.1.2 * r.2)).sum

/-- The determinant of `AᵀA`. -/
def detAtA (z : Eqns) : ℚ := sumAA z * sumCC z - sumAC z * sumAC z

/-- The least-squares solution of least norm, `A⁺ b`: the solution of the normal
equations when `AᵀA` is invertible; otherwise `AᵀA` has rank at most one and its
pseudo-inverse is `AᵀA / (tr AᵀA)²` (zero when `A = 0`). -/
def lstsq (z : Eqns) : ℚ × ℚ :=
  if detAtA z ≠ 0 then
    ((sumCC z * sumAD z - sumAC z * sumCD z) / detAtA z,
     (sumAA z * sumCD z - sumAC z * sumAD z) / detAtA z)
  else
    ((sumAA z * sumAD z + sumAC z * sumCD z) / ((sumAA z + sumCC z) * (sumAA z + sumCC z)),
     (sumAC z * sumAD z + sumCC z * sumCD z) / ((sumAA z + sumCC z) * (sumAA z + sumCC z)))

/-- Modelled from the spec: `cv::solve(A, b, v, cv::DECOMP_SVD)` is OpenCV code and is
not part of the repository.  Following the solver contract of the specification, an
empty system is rejected with `InsufficientData`, and otherwise the result is the
least-squares solution of `A v = b` in exact arithmetic: the unique minimiser of
`‖A v − b‖²` when `A` has rank 2, and the minimiser of least norm when `A` is
rank-deficient (what an SVD-based solve returns).  The rounding that happens inside the
decomposition is not modelled. -/
def cvSolve (A : List (ℚ × ℚ)) (b : List ℚ) : Except EstError (ℚ × ℚ) :=
  if A.zip b = [] then .error .InsufficientData else .ok (lstsq (A.zip b))

/-- A point is a least-squares solution when no other point has a smaller `‖A v − b‖²`. -/
def IsLeastSquares (z : Eqns) (v : ℚ × ℚ) : Prop :=
  ∀ w : ℚ × ℚ, ssr z v.1 v.2 ≤ ssr z w.1 w.2

/-- The solved vector `v` of `main`: the loop, then the solve; a failed solve ends the
program (`return -1`).  `v` is a `CV_32F` matrix, so its two entries are `float`s. -/
def solveV (fl : ℚ → ℚ) (lines : List Vec4i) : Except EstError (ℚ × ℚ) :=
  match cvSolve (buildSystem fl lines).A (buildSystem fl lines).b with
  | .error e => .error e
  | .ok v => .ok (fl v.1, fl v.2)

/-- Conversion of a `float` to `int`, which discards the fractional part. -/
def truncate (q : ℚ) : Int :=
  if 0 ≤ q then Rat.floor q else -Rat.floor (-q)

/-- The point `cv::Point solutionPt(v.at<float>(0,0), v.at<float>(1,0))`. -/
def solutionPt (v : ℚ × ℚ) : Point := ⟨truncate v.1, truncate v.2⟩

/-- The estimation stage of `main`: the solution point that is printed and drawn, or the
failure that ends the program before anything is printed. -/
def estimate (fl : ℚ → ℚ) (lines : List Vec4i) : Except EstError Point :=
  match solveV fl lines with
  | .error e => .error e
  | .ok v => .ok (solutionPt v)

/-- The system that is handed to the solver, row by row. -/
def eqns (fl : ℚ → ℚ) (lines : List Vec4i) : Eqns :=
  (buildSystem fl lines).A.zip (buildSystem fl lines).b

/-- A row as an equation of the system. -/
def Row.eqn (r : Row) : (ℚ × ℚ) × ℚ := ((r.a, r.c), r.d)

/-- The quadratic form `‖A u‖²`. -/
def quadForm (z : Eqns) (u w : ℚ) : ℚ := (z.map (fun r => (r.1.1 * u + r.1.2 * w) ^ 2)).sum

/-- The normal equations `AᵀA v = Aᵀb`. -/
def NormalEq (z : Eqns) (v : ℚ × ℚ) : Prop :=
  sumAA z * v.1 + sumAC z * v.2 = sumAD z ∧ sumAC z * v.1 + sumCC z * v.2 = sumCD z

/-! ## Geometry of the segments -/

/-- The segment with its end points exchanged. -/
def Vec4i.swap (l : Vec4i) : Vec4i := ⟨l.x2, l.y2, l.x1, l.y1⟩

/-- The row of `l` is computed without rounding error: the stored values are those of
exact arithmetic. -/
def RoundsExactly (fl : ℚ → ℚ) (l : Vec4i) : Prop := constraintRow fl l = constraintRow id l

/-- The line through the two (distinct) end points of `l` passes through the point `Q`. -/
def PassesThrough (l : Vec4i) (Q : ℚ × ℚ) : Prop :=
  (l.x1 ≠ l.x2 ∨ l.y1 ≠ l.y2) ∧
    ((l.x2 - l.x1 : Int) : ℚ) * (Q.2 - (l.y1 : ℚ)) = ((l.y2 - l.y1 : Int) : ℚ) * (Q.1 - (l.x1 : ℚ))

/-- The direction vectors of the two segments are linearly dependent. -/
def Parallel (l l' : Vec4i) : Prop :=
  (l.x2 - l.x1) * (l'.y2 - l'.y1) = (l'.x2 - l'.x1) * (l.y2 - l.y1)

instance (fl : ℚ → ℚ) (l : Vec4i) : Decidable (RoundsExactly fl l) := by
  unfold RoundsExactly; infer_instance

instance (l : Vec4i) (Q : ℚ × ℚ) : Decidable (PassesThrough l Q) := by
  unfold PassesThrough; infer_instance

instance (l l' : Vec4i) : Decidable (Parallel l l') := by
  unfold Parallel; infer_instance

/-- Squared perpendicular distance from the point `Q` to the line through the end points
of `l`. -/
def perpDistSq (l : Vec4i) (Q : ℚ × ℚ) : ℚ :=
  (((l.y2 - l.y1 : Int) : ℚ) * (Q.1 - (l.x1 : ℚ)) -
      ((l.x2 - l.x1 : Int) : ℚ) * (Q.2 - (l.y1 : ℚ))) ^ 2 /
    ((((l.x2 - l.x1) ^ 2 + (l.y2 - l.y1) ^ 2 : Int)) : ℚ)

/-- Sum of the squared perpendicular distances from `Q` to the lines of all segments. -/
def sumPerpDistSq (lines : List Vec4i) (Q : ℚ × ℚ) : ℚ :=
  (lines.map (fun l => perpDistSq l Q)).sum

/-! ## Concrete inputs -/

/-- The segment from `(0,0)` to `(10,10)`. -/
def diagUp : Vec4i := ⟨0, 0, 10, 10⟩

/-- The segment from `(0,10)` to `(10,0)`. -/
def diagDown : Vec4i := ⟨0, 10, 10, 0⟩

/-- The vertical segment from `(5,0)` to `(5,10)`. -/
def vert5 : Vec4i := ⟨5, 0, 5, 10⟩

/-- The horizontal segment from `(0,3)` to `(10,3)`. -/
def horiz3 : Vec4i := ⟨0, 3, 10, 3⟩

/-- The zero-length segment at `(7,3)`. -/
def dot73 : Vec4i := ⟨7, 3, 7, 3⟩

/-- A vertical segment whose abscissa `2 ^ 24 + 1` is not a binary32 number. -/
def vertLarge : Vec4i := ⟨16777217, 0, 16777217, 10⟩

/-- A segment of slope `1/107`, inside the 800×600 image and longer than 100 pixels. -/
def shallow : Vec4i := ⟨0, 0, 107, 1⟩

/-- Three segments inside the 800×600 image, each longer than 100 pixels: on `y = 120`,
on `x = 90` and on `y = 2 x`. -/
def skewLines : List Vec4i := [⟨0, 120, 200, 120⟩, ⟨90, 0, 90, 200⟩, ⟨0, 0, 100, 200⟩]

/-- Three copies of one segment on the line `y = 100`. -/
def sameLines : List Vec4i := [⟨0, 100, 200, 100⟩, ⟨0, 100, 200, 100⟩, ⟨0, 100, 200, 100⟩]

/-- Three segments whose lines meet at `(100, 100)`: slopes `-11/6` and `-1`, and a
vertical one. -/
def fanLines : List Vec4i := [⟨34, 221, 106, 89⟩, ⟨52, 148, 124, 76⟩, ⟨100, 0, 100, 200⟩]

/-- Three segments with slopes `1`, `-2` and `4` whose lines meet at `(100/3, 100/3)`. -/
def thirdLines : List Vec4i := [⟨0, 0, 200, 200⟩, ⟨0, 100, 50, 0⟩, ⟨25, 0, 75, 200⟩]

/-! ## Properties of the binary32 rounding -/

theorem log2Fuel_le (fuel : Nat) : ∀ (m n : Nat), n < 2 ^ (m + 1) → log2Fuel fuel n ≤ m := by
  induction fuel with
  | zero => intro m n _; simp [log2Fuel]
  | succ f ih =>
    intro m n h
    unfold log2Fuel
    split
    · exact Nat.zero_le _
    · rename_i h2
      cases m with
      | zero => omega
      | succ m =>
        have : n / 2 < 2 ^ (m + 1) := by
          rw [Nat.div_lt_iff_lt_mul (by norm_num)]
          rw [pow_succ] at h
          exact h
        have := ih m (n / 2) this
        omega

theorem pow2_nonpos (j : Int) (h : j ≤ 0) : pow2 j = 1 / ((2 ^ (-j).toNat : Nat) : ℚ) := by
  unfold pow2
  split
  · have : j = 0 := le_antisymm h ‹_›
    subst this
    simp
  · rfl

theorem ratFloor_eq (q : ℚ) : Rat.floor q = ⌊q⌋ := rfl

theorem roundHalfEven_intCast (z : Int) : roundHalfEven (z : ℚ) = z := by
  unfold roundHalfEven
  simp [ratFloor_eq]

theorem ilog2_intCast_le (k : Int) (h : |k| < 2 ^ 24) : ilog2 (k : ℚ) ≤ 23 := by
  have hn : log2Fuel k.natAbs k.natAbs ≤ 23 := by
    apply log2Fuel_le
    have : (k.natAbs : Int) < 2 ^ 24 := by rw [Int.natCast_natAbs]; exact h
    exact_mod_cast this
  unfold ilog2
  simp only [Rat.intCast_num, Rat.intCast_den]
  have h1 : log2Fuel 1 1 = 0 := by decide
  rw [h1]
  split <;> omega

theorem f32_of_ilog2_le (k : Int) (h : ilog2 (k : ℚ) ≤ 23) : f32 (k : ℚ) = k := by
  unfold f32
  split
  · rename_i h0; exact h0.symm
  · have he : max (ilog2 (k : ℚ)) (-126) - 23 ≤ 0 := by
      have : max (ilog2 (k : ℚ)) (-126) ≤ 23 := max_le h (by norm_num)
      omega
    simp only
    rw [pow2_nonpos _ he]
    generalize (-(max (ilog2 (k : ℚ)) (-126) - 23)).toNat = N
    have hz : (k : ℚ) / (1 / ((2 ^ N : Nat) : ℚ)) = ((k * 2 ^ N : Int) : ℚ) := by
      push_cast
      field_simp
    rw [hz, roundHalfEven_intCast]
    push_cast
    field_simp

/-- Conversion of an `int` of magnitude at most `2 ^ 24` to binary32 is exact. -/
theorem f32_intCast (k : Int) (h : |k| ≤ 2 ^ 24) : f32 (k : ℚ) = k := by
  rcases lt_or_eq_of_le h with hlt | heq
  · exact f32_of_ilog2_le k (ilog2_intCast_le k hlt)
  · rcases abs_eq (by norm_num : (0 : Int) ≤ 2 ^ 24) |>.mp heq with h1 | h1
    · subst h1; decide!
    · subst h1; decide!

theorem pow2_eq_zpow (k : Int) : pow2 k = (2 : ℚ) ^ k := by
  unfold pow2
  split
  · rename_i h
    obtain ⟨n, rfl⟩ := Int.eq_ofNat_of_zero_le h
    simp
  · rename_i h
    have h' : 0 ≤ -k := by omega
    obtain ⟨n, hn⟩ := Int.eq_ofNat_of_zero_le h'
    have hk : k = -(n : Int) := by omega
    subst hk
    simp

theorem pow2_pos (k : Int) : 0 < pow2 k := by
  rw [pow2_eq_zpow]; positivity

theorem log2Fuel_spec (fuel : Nat) :
    ∀ n : Nat, 1 ≤ n → n < 2 ^ fuel →
      2 ^ log2Fuel fuel n ≤ n ∧ n < 2 ^ (log2Fuel fuel n + 1) := by
  induction fuel with
  | zero => intro n h1 h2; simp at h2; omega
  | succ f ih =>
    intro n h1 h2
    unfold log2Fuel
    split
    · rename_i hlt
      have : n = 1 := by omega
      subst this
      simp
    · rename_i hge
      have hn2 : 1 ≤ n / 2 := by omega
      have hlt : n / 2 < 2 ^ f := by
        rw [Nat.div_lt_iff_lt_mul (by norm_num)]
        rw [pow_succ] at h2
        exact h2
      obtain ⟨a, b⟩ := ih (n / 2) hn2 hlt
      constructor
      · rw [pow_succ]; omega
      · rw [pow_succ]; omega

theorem log2Fuel_self (n : Nat) (h : 1 ≤ n) :
    2 ^ log2Fuel n n ≤ n ∧ n < 2 ^ (log2Fuel n n + 1) :=
  log2Fuel_spec n n h (Nat.lt_two_pow n)

/-- The binade computed by `ilog2` is the right one. -/
theorem ilog2_spec (q : ℚ) (hq : q ≠ 0) :
    pow2 (ilog2 q) ≤ |q| ∧ |q| < pow2 (ilog2 q + 1) := by
  have hnum : 1 ≤ q.num.natAbs := by
    have : q.num ≠ 0 := Rat.num_ne_zero.mpr hq
    omega
  have hden : 1 ≤ q.den := q.den_pos
  obtain ⟨n1, n2⟩ := log2Fuel_self q.num.natAbs hnum
  obtain ⟨d1, d2⟩ := log2Fuel_self q.den hden
  have habs : |q| = (q.num.natAbs : ℚ) / (q.den : ℚ) := by
    conv_lhs => rw [← Rat.num_div_den q]
    rw [abs_div, Nat.abs_cast, ← Int.cast_abs, Int.cast_natAbs]
  have hdpos : (0 : ℚ) < q.den := by exact_mod_cast q.den_pos
  set ln := log2Fuel q.num.natAbs q.num.natAbs with hln
  set ld := log2Fuel q.den q.den with hld
  have N1 : (2 : ℚ) ^ (ln : Int) ≤ (q.num.natAbs : ℚ) := by
    rw [zpow_natCast]; exact_mod_cast n1
  have N2 : (q.num.natAbs : ℚ) < (2 : ℚ) ^ ((ln : Int) + 1) := by
    have : (q.num.natAbs : ℚ) < (2 : ℚ) ^ (ln + 1) := by exact_mod_cast n2
    rw [show ((ln : Int) + 1) = ((ln + 1 : Nat) : Int) by simp, zpow_natCast]
    exact this
  have D1 : (2 : ℚ) ^ (ld : Int) ≤ (q.den : ℚ) := by
    rw [zpow_natCast]; exact_mod_cast d1
  have D2 : (q.den : ℚ) < (2 : ℚ) ^ ((ld : Int) + 1) := by
    have : (q.den : ℚ) < (2 : ℚ) ^ (ld + 1) := by exact_mod_cast d2
    rw [show ((ld : Int) + 1) = ((ld + 1 : Nat) : Int) by simp, zpow_natCast]
    exact this
  have two_ne : (2 : ℚ) ≠ 0 := by norm_num
  -- the quotient lies strictly between `2 ^ (k - 1)` and `2 ^ (k + 1)`
  have lower : (2 : ℚ) ^ ((ln : Int) - ld - 1) < |q| := by
    rw [habs, lt_div_iff₀ hdpos]
    have e : (2 : ℚ) ^ ((ln : Int) - ld - 1) * (2 : ℚ) ^ ((ld : Int) + 1) = (2 : ℚ) ^ (ln : Int) := by
      rw [← zpow_add₀ two_ne]; congr 1; ring
    have hp : (0 : ℚ) < (2 : ℚ) ^ ((ln : Int) - ld - 1) := by positivity
    calc (2 : ℚ) ^ ((ln : Int) - ld - 1) * (q.den : ℚ)
        < (2 : ℚ) ^ ((ln : Int) - ld - 1) * (2 : ℚ) ^ ((ld : Int) + 1) :=
          mul_lt_mul_of_pos_left D2 hp
      _ = (2 : ℚ) ^ (ln : Int) := e
      _ ≤ (q.num.natAbs : ℚ) := N1
  have upper : |q| < (2 : ℚ) ^ ((ln : Int) - ld + 1) := by
    rw [habs, div_lt_iff₀ hdpos]
    have e : (2 : ℚ) ^ ((ln : Int) - ld + 1) * (2 : ℚ) ^ (ld : Int) = (2 : ℚ) ^ ((ln : Int) + 1) := by
      rw [← zpow_add₀ two_ne]; congr 1; ring
    have hp : (0 : ℚ) < (2 : ℚ) ^ ((ln : Int) - ld + 1) := by positivity
    calc (q.num.natAbs : ℚ) < (2 : ℚ) ^ ((ln : Int) + 1) := N2
      _ = (2 : ℚ) ^ ((ln : Int) - ld + 1) * (2 : ℚ) ^ (ld : Int) := e.symm
      _ ≤ (2 : ℚ) ^ ((ln : Int) - ld + 1) * (q.den : ℚ) :=
          mul_le_mul_of_nonneg_left D1 hp.le
  unfold ilog2
  simp only [← hln, ← hld]
  split
  · rename_i h
    exact ⟨h, by rw [pow2_eq_zpow]; exact upper⟩
  · rename_i h
    rw [pow2_eq_zpow] at h
    rw [pow2_eq_zpow, pow2_eq_zpow]
    refine ⟨lower.le, ?_⟩
    rw [sub_add_cancel]
    exact lt_of_not_le h

theorem roundHalfEven_near (t : ℚ) : |(roundHalfEven t : ℚ) - t| ≤ 1 / 2 := by
  have h1 : ((Rat.floor t : Int) : ℚ) ≤ t := by rw [ratFloor_eq]; exact Int.floor_le t
  have h2 : t < ((Rat.floor t : Int) : ℚ) + 1 := by rw [ratFloor_eq]; exact Int.lt_floor_add_one t
  unfold roundHalfEven
  simp only
  split
  · rw [abs_le]; constructor <;> linarith
  · rename_i hA
    split
    · push_cast; rw [abs_le]; constructor <;> linarith
    · rename_i hB
      have : t - ((Rat.floor t : Int) : ℚ) = 1 / 2 := le_antisymm (not_lt.mp hB) (not_lt.mp hA)
      split
      · rw [abs_le]; constructor <;> linarith
      · push_cast; rw [abs_le]; constructor <;> linarith

/-- The result of `f32` is a multiple of the unit in the last place of the binade of its
argument, at most half a unit away from the argument. -/
theorem f32_nearest (q : ℚ) (hq : q ≠ 0) :
    (∃ M : Int, f32 q = (M : ℚ) * pow2 (max (ilog2 q) (-126) - 23)) ∧
    |f32 q - q| ≤ pow2 (max (ilog2 q) (-126) - 23) / 2 := by
  have hu := pow2_pos (max (ilog2 q) (-126) - 23)
  unfold f32
  rw [if_neg hq]
  simp only
  set ulp := pow2 (max (ilog2 q) (-126) - 23) with hulp
  refine ⟨⟨_, rfl⟩, ?_⟩
  have hn := roundHalfEven_near (q / ulp)
  have e : (roundHalfEven (q / ulp) : ℚ) * ulp - q = ((roundHalfEven (q / ulp) : ℚ) - q / ulp) * ulp := by
    field_simp
  rw [e, abs_mul, abs_of_pos hu]
  calc |(roundHalfEven (q / ulp) : ℚ) - q / ulp| * ulp ≤ 1 / 2 * ulp :=
        mul_le_mul_of_nonneg_right hn hu.le
    _ = ulp / 2 := by ring

/-- A tie is resolved to the even neighbour. -/
theorem roundHalfEven_tie (t : ℚ) (h : |(roundHalfEven t : ℚ) - t| = 1 / 2) :
    roundHalfEven t % 2 = 0 := by
  have h1 : ((Rat.floor t : Int) : ℚ) ≤ t := by rw [ratFloor_eq]; exact Int.floor_le t
  have h2 : t < ((Rat.floor t : Int) : ℚ) + 1 := by rw [ratFloor_eq]; exact Int.lt_floor_add_one t
  unfold roundHalfEven at h ⊢
  simp only at h ⊢
  split
  · rename_i hA
    rw [if_pos hA] at h
    rw [abs_of_nonpos (by linarith)] at h
    linarith
  · rename_i hA
    rw [if_neg hA] at h
    split
    · rename_i hB
      rw [if_pos hB] at h
      push_cast at h
      rw [abs_of_nonneg (by linarith)] at h
      linarith
    · split
      · assumption
      · omega

/-! ## The loop fills the rows in order -/

theorem take_succ_set {α : Type} (l : List α) (n : Nat) (a : α) (h : n < l.length) :
    (l.set n a).take (n + 1) = l.take n ++ [a] := by
  rw [List.set_eq_take_append_cons_drop, if_pos h]
  have hlen : (List.take n l).length = n := List.length_take_of_le (Nat.le_of_lt h)
  rw [List.take_append_eq_append_take, hlen]
  simp [List.take_of_length_le, hlen]

theorem foldl_loopStep (fl : ℚ → ℚ) (rest : List Vec4i) :
    ∀ s : Sys, s.n + rest.length ≤ s.A.length → s.n + rest.length ≤ s.b.length →
      (rest.foldl (loopStep fl) s).n = s.n + rest.length ∧
      (rest.foldl (loopStep fl) s).A =
        s.A.take s.n ++ rest.map (fun l => (constraintRow fl l).coeffs) ++
          s.A.drop (s.n + rest.length) ∧
      (rest.foldl (loopStep fl) s).b =
        s.b.take s.n ++ rest.map (fun l => (constraintRow fl l).d) ++
          s.b.drop (s.n + rest.length) := by
  induction rest with
  | nil =>
    intro s _ _
    simp
  | cons l rest ih =>
    intro s hA hb
    simp only [List.length_cons] at hA hb
    have h := ih (loopStep fl s l) (by simp [loopStep]; omega) (by simp [loopStep]; omega)
    simp only [List.foldl_cons]
    obtain ⟨h1, h2, h3⟩ := h
    have e : s.n + 1 + rest.length = s.n + (rest.length + 1) := by omega
    refine ⟨?_, ?_, ?_⟩
    · rw [h1]; simp [loopStep]; omega
    · rw [h2]
      simp only [loopStep, Row.coeffs, List.map_cons, List.length_cons]
      rw [take_succ_set _ _ _ (by omega), List.drop_set_of_lt _ _ (by omega), e]
      simp
    · rw [h3]
      simp only [loopStep, List.map_cons, List.length_cons]
      rw [take_succ_set _ _ _ (by omega), List.drop_set_of_lt _ _ (by omega), e]
      simp

theorem loopAfter_eq (fl : ℚ → ℚ) (lines : List Vec4i) (k : Nat) :
    (loopAfter fl lines k).n = min k lines.length ∧
    (loopAfter fl lines k).A = (lines.take k).map (fun l => (constraintRow fl l).coeffs) ++
      List.replicate (lines.length - min k lines.length) (0, 0) ∧
    (loopAfter fl lines k).b = (lines.take k).map (fun l => (constraintRow fl l).d) ++
      List.replicate (lines.length - min k lines.length) 0 := by
  have h := foldl_loopStep fl (lines.take k) (allocSys lines.length)
    (by simp [allocSys]) (by simp [allocSys])
  simpa [loopAfter, allocSys] using h

theorem buildSystem_eq (fl : ℚ → ℚ) (lines : List Vec4i) :
    (buildSystem fl lines).n = lines.length ∧
    (buildSystem fl lines).A = lines.map (fun l => (constraintRow fl l).coeffs) ∧
    (buildSystem fl lines).b = lines.map (fun l => (constraintRow fl l).d) := by
  have h := foldl_loopStep fl lines (allocSys lines.length)
    (by simp [allocSys]) (by simp [allocSys])
  simpa [buildSystem, allocSys] using h

/-! ## The two branches of the loop body -/

theorem constraintRow_id_of_ne (l : Vec4i) (h : l.x1 ≠ l.x2) :
    constraintRow id l =
      { a := -(((l.y1 : ℚ) - l.y2) / ((l.x1 : ℚ) - l.x2)), c := 1,
        d := (l.y1 : ℚ) - ((l.y1 : ℚ) - l.y2) / ((l.x1 : ℚ) - l.x2) * l.x1 } := by
  simp [constraintRow, slope, pt1, pt2, h]

theorem constraintRow_of_eq (fl : ℚ → ℚ) (l : Vec4i) (h : l.x1 = l.x2) :
    constraintRow fl l = { a := 1, c := 0, d := fl (l.x1 : ℚ) } := by
  simp [constraintRow, pt1, pt2, h]

theorem eqns_eq (fl : ℚ → ℚ) (lines : List Vec4i) :
    eqns fl lines = lines.map (fun l => (constraintRow fl l).eqn) := by
  obtain ⟨_, hA, hb⟩ := buildSystem_eq fl lines
  unfold eqns
  rw [hA, hb, List.zip_map']
  rfl

theorem solveV_eq (fl : ℚ → ℚ) (lines : List Vec4i) :
    solveV fl lines =
      if lines = [] then .error .InsufficientData
      else .ok (fl (lstsq (eqns fl lines)).1, fl (lstsq (eqns fl lines)).2) := by
  have h : (buildSystem fl lines).A.zip (buildSystem fl lines).b = eqns fl lines := rfl
  unfold solveV cvSolve
  rw [h]
  by_cases hl : lines = []
  · subst hl
    simp [eqns_eq]
  · have : eqns fl lines ≠ [] := by simpa [eqns_eq] using hl
    simp [this, hl]

theorem ssr_perm {z z' : Eqns} (h : z.Perm z') (x y : ℚ) : ssr z x y = ssr z' x y :=
  (h.map _).sum_eq

theorem lstsq_perm {z z' : Eqns} (h : z.Perm z') : lstsq z = lstsq z' := by
  have hAA : sumAA z = sumAA z' := (h.map _).sum_eq
  have hAC : sumAC z = sumAC z' := (h.map _).sum_eq
  have hCC : sumCC z = sumCC z' := (h.map _).sum_eq
  have hAD : sumAD z = sumAD z' := (h.map _).sum_eq
  have hCD : sumCD z = sumCD z' := (h.map _).sum_eq
  simp only [lstsq, detAtA, hAA, hAC, hCC, hAD, hCD]

/-! ## The normal equations -/

@[simp] theorem sumAA_cons (r : (ℚ × ℚ) × ℚ) (z : Eqns) :
    sumAA (r :: z) = r.1.1 * r.1.1 + sumAA z := by simp [sumAA]

@[simp] theorem sumAC_cons (r : (ℚ × ℚ) × ℚ) (z : Eqns) :
    sumAC (r :: z) = r.1.1 * r.1.2 + sumAC z := by simp [sumAC]

@[simp] theorem sumCC_cons (r : (ℚ × ℚ) × ℚ) (z : Eqns) :
    sumCC (r :: z) = r.1.2 * r.1.2 + sumCC z := by simp [sumCC]

@[simp] theorem sumAD_cons (r : (ℚ × ℚ) × ℚ) (z : Eqns) :
    sumAD (r :: z) = r.1.1 * r.2 + sumAD z := by simp [sumAD]

@[simp] theorem sumCD_cons (r : (ℚ × ℚ) × ℚ) (z : Eqns) :
    sumCD (r :: z) = r.1.2 * r.2 + sumCD z := by simp [sumCD]

@[simp] theorem sumAA_nil : sumAA [] = 0 := rfl

@[simp] theorem sumAC_nil : sumAC [] = 0 := rfl

@[simp] theorem sumCC_nil : sumCC [] = 0 := rfl

@[simp] theorem sumAD_nil : sumAD [] = 0 := rfl

@[simp] theorem sumCD_nil : sumCD [] = 0 := rfl

/-- In a system that `(x, y)` solves exactly, `Aᵀb = AᵀA (x, y)`. -/
theorem rhs_of_consistent (z : Eqns) (x y : ℚ)
    (h : ∀ r ∈ z, r.1.1 * x + r.1.2 * y = r.2) :
    sumAD z = sumAA z * x + sumAC z * y ∧ sumCD z = sumAC z * x + sumCC z * y := by
  induction z with
  | nil => simp
  | cons r z ih =>
    have hr := h r (List.mem_cons_self _ _)
    obtain ⟨h1, h2⟩ := ih (fun s hs => h s (List.mem_cons_of_mem _ hs))
    simp only [sumAD_cons, sumCD_cons, sumAA_cons, sumAC_cons, sumCC_cons, h1, h2, ← hr]
    constructor <;> ring

theorem lstsq_of_consistent (z : Eqns) (x y : ℚ)
    (h : ∀ r ∈ z, r.1.1 * x + r.1.2 * y = r.2) (hdet : detAtA z ≠ 0) :
    lstsq z = (x, y) := by
  obtain ⟨h1, h2⟩ := rhs_of_consistent z x y h
  unfold lstsq
  rw [if_pos hdet, h1, h2]
  have hd : detAtA z = sumAA z * sumCC z - sumAC z * sumAC z := rfl
  refine Prod.ext ?_ ?_
  · simp only
    rw [div_eq_iff hdet, hd]; ring
  · simp only
    rw [div_eq_iff hdet, hd]; ring

theorem cross_sum (r : (ℚ × ℚ) × ℚ) (z : Eqns) :
    (z.map (fun s => (r.1.1 * s.1.2 - r.1.2 * s.1.1) ^ 2)).sum =
      r.1.1 * r.1.1 * sumCC z - 2 * (r.1.1 * r.1.2) * sumAC z + r.1.2 * r.1.2 * sumAA z := by
  induction z with
  | nil => simp
  | cons s z ih =>
    simp only [List.map_cons, List.sum_cons, ih, sumCC_cons, sumAC_cons, sumAA_cons]
    ring

/-- The identity of Lagrange, one row at a time. -/
theorem detAtA_cons (r : (ℚ × ℚ) × ℚ) (z : Eqns) :
    detAtA (r :: z) =
      detAtA z + (z.map (fun s => (r.1.1 * s.1.2 - r.1.2 * s.1.1) ^ 2)).sum := by
  rw [cross_sum]
  simp only [detAtA, sumAA_cons, sumAC_cons, sumCC_cons]
  ring

theorem cross_sum_nonneg (r : (ℚ × ℚ) × ℚ) (z : Eqns) :
    0 ≤ (z.map (fun s => (r.1.1 * s.1.2 - r.1.2 * s.1.1) ^ 2)).sum := by
  apply List.sum_nonneg
  intro t ht
  obtain ⟨s, _, rfl⟩ := List.mem_map.mp ht
  positivity

theorem detAtA_nonneg (z : Eqns) : 0 ≤ detAtA z := by
  induction z with
  | nil => simp [detAtA]
  | cons r z ih =>
    rw [detAtA_cons]
    exact add_nonneg ih (cross_sum_nonneg r z)

theorem cross_sq_le_sum (r s : (ℚ × ℚ) × ℚ) (z : Eqns) (hs : s ∈ z) :
    (r.1.1 * s.1.2 - r.1.2 * s.1.1) ^ 2 ≤
      (z.map (fun s => (r.1.1 * s.1.2 - r.1.2 * s.1.1) ^ 2)).sum := by
  apply List.single_le_sum
  · intro t ht
    obtain ⟨u, _, rfl⟩ := List.mem_map.mp ht
    positivity
  · exact List.mem_map.mpr ⟨s, hs, rfl⟩

/-- Two rows that are not parallel make `AᵀA` invertible. -/
theorem detAtA_pos (z : Eqns) (r s : (ℚ × ℚ) × ℚ) (hr : r ∈ z) (hs : s ∈ z)
    (hc : r.1.1 * s.1.2 - r.1.2 * s.1.1 ≠ 0) : 0 < detAtA z := by
  induction z with
  | nil => simp at hr
  | cons t z ih =>
    rw [detAtA_cons]
    rcases List.mem_cons.mp hr with hr1 | hr1 <;> rcases List.mem_cons.mp hs with hs1 | hs1
    · subst hr1; subst hs1; exact absurd (by ring) hc
    · subst hr1
      have h1 := cross_sq_le_sum r s z hs1
      have h2 : 0 < (r.1.1 * s.1.2 - r.1.2 * s.1.1) ^ 2 := by positivity
      have := detAtA_nonneg z
      linarith
    · subst hs1
      have h1 := cross_sq_le_sum s r z hr1
      have h2 : 0 < (s.1.1 * r.1.2 - s.1.2 * r.1.1) ^ 2 := by
        have : s.1.1 * r.1.2 - s.1.2 * r.1.1 ≠ 0 := by
          intro h0; apply hc; linarith
        positivity
      have := detAtA_nonneg z
      linarith
    · have := ih hr1 hs1
      have := cross_sum_nonneg t z
      linarith

/-! ## Rows of segments through a common point -/

theorem cast_sub_ne_zero {a b : Int} (h : a ≠ b) : (a : ℚ) - (b : ℚ) ≠ 0 := by
  intro h0
  apply h
  have : (a : ℚ) = b := sub_eq_zero.mp h0
  exact_mod_cast this

/-- An exactly computed row vanishes at every point of the line through the segment. -/
theorem row_at_point (fl : ℚ → ℚ) (l : Vec4i) (Q : ℚ × ℚ) (hex : RoundsExactly fl l)
    (hQ : PassesThrough l Q) :
    (constraintRow fl l).a * Q.1 + (constraintRow fl l).c * Q.2 = (constraintRow fl l).d := by
  unfold RoundsExactly at hex
  obtain ⟨hnd, hl⟩ := hQ
  rw [hex]
  by_cases hx : l.x1 = l.x2
  · rw [constraintRow_of_eq id l hx]
    have hy : l.y1 ≠ l.y2 := by
      rcases hnd with h | h
      · exact absurd hx h
      · exact h
    have hy' : ((l.y2 : ℚ) - l.y1) ≠ 0 := cast_sub_ne_zero (Ne.symm hy)
    simp only [hx, sub_self, Int.cast_zero, zero_mul, Int.cast_sub] at hl
    have : Q.1 - (l.x2 : ℚ) = 0 := by
      rcases mul_eq_zero.mp hl.symm with h | h
      · exact absurd h hy'
      · exact h
    simp only [id, hx, one_mul, zero_mul, add_zero]
    linarith
  · rw [constraintRow_id_of_ne l hx]
    have hne := cast_sub_ne_zero hx
    simp only [Int.cast_sub] at hl
    simp only
    field_simp
    linear_combination -hl

/-- Exactly computed rows of two segments that are not parallel are not parallel. -/
theorem rows_cross (fl : ℚ → ℚ) (l l' : Vec4i) (hex : RoundsExactly fl l)
    (hex' : RoundsExactly fl l') (hnp : ¬ Parallel l l') :
    (constraintRow fl l).a * (constraintRow fl l').c -
      (constraintRow fl l).c * (constraintRow fl l').a ≠ 0 := by
  unfold RoundsExactly at hex hex'
  unfold Parallel at hnp
  rw [hex, hex']
  by_cases hx : l.x1 = l.x2 <;> by_cases hx' : l'.x1 = l'.x2
  · exfalso; apply hnp; rw [hx, hx']; ring
  · rw [constraintRow_of_eq id l hx, constraintRow_id_of_ne l' hx']; simp
  · rw [constraintRow_id_of_ne l hx, constraintRow_of_eq id l' hx']; simp
  · rw [constraintRow_id_of_ne l hx, constraintRow_id_of_ne l' hx']
    have hne := cast_sub_ne_zero hx
    have hne' := cast_sub_ne_zero hx'
    simp only
    intro h0
    apply hnp
    have h1 : ((l.y1 : ℚ) - l.y2) / ((l.x1 : ℚ) - l.x2) =
        ((l'.y1 : ℚ) - l'.y2) / ((l'.x1 : ℚ) - l'.x2) := by linarith
    rw [div_eq_div_iff hne hne'] at h1
    have h2 : (((l.x2 - l.x1) * (l'.y2 - l'.y1) : Int) : ℚ) =
        (((l'.x2 - l'.x1) * (l.y2 - l.y1) : Int) : ℚ) := by
      push_cast
      linear_combination -h1
    exact_mod_cast h2

/-- The solver finds the common point of exactly computed rows. -/
theorem solveV_of_concurrent (fl : ℚ → ℚ) (lines : List Vec4i) (Q : ℚ × ℚ)
    (hex : ∀ l ∈ lines, RoundsExactly fl l) (hQ : ∀ l ∈ lines, PassesThrough l Q)
    (hnp : ∃ l ∈ lines, ∃ l' ∈ lines, ¬ Parallel l l')
    (hfl : fl Q.1 = Q.1 ∧ fl Q.2 = Q.2) :
    solveV fl lines = .ok Q := by
  obtain ⟨l, hl, l', hl', hpar⟩ := hnp
  have hne : lines ≠ [] := List.ne_nil_of_mem hl
  have hcons : ∀ r ∈ eqns fl lines, r.1.1 * Q.1 + r.1.2 * Q.2 = r.2 := by
    intro r hr
    rw [eqns_eq] at hr
    obtain ⟨s, hs, rfl⟩ := List.mem_map.mp hr
    exact row_at_point fl s Q (hex s hs) (hQ s hs)
  have hdet : detAtA (eqns fl lines) ≠ 0 := by
    apply ne_of_gt
    apply detAtA_pos (eqns fl lines) (constraintRow fl l).eqn (constraintRow fl l').eqn
    · rw [eqns_eq]; exact List.mem_map.mpr ⟨l, hl, rfl⟩
    · rw [eqns_eq]; exact List.mem_map.mpr ⟨l', hl', rfl⟩
    · exact rows_cross fl l l' (hex l hl) (hex l' hl') hpar
  rw [solveV_eq, if_neg hne, lstsq_of_consistent _ Q.1 Q.2 hcons hdet]
  simp only [hfl.1, hfl.2]

theorem truncate_intCast (z : Int) : truncate (z : ℚ) = z := by
  unfold truncate
  split
  · simp [ratFloor_eq]
  · rw [← Int.cast_neg, ratFloor_eq, Int.floor_intCast]; simp

/-! ## The modelled solver returns the least-squares solution of least norm -/

theorem quadForm_nonneg (z : Eqns) (u w : ℚ) : 0 ≤ quadForm z u w := by
  apply List.sum_nonneg
  intro t ht
  obtain ⟨s, _, rfl⟩ := List.mem_map.mp ht
  positivity

theorem quadForm_eq (z : Eqns) (u w : ℚ) :
    quadForm z u w = sumAA z * u ^ 2 + 2 * sumAC z * u * w + sumCC z * w ^ 2 := by
  induction z with
  | nil => simp [quadForm]
  | cons r z ih =>
    unfold quadForm at ih ⊢
    simp only [List.map_cons, List.sum_cons, ih, sumAA_cons, sumAC_cons, sumCC_cons]
    ring

theorem ssr_shift (z : Eqns) (x y u w : ℚ) :
    ssr z (x + u) (y + w) =
      ssr z x y +
        2 * (u * (sumAA z * x + sumAC z * y - sumAD z) +
              w * (sumAC z * x + sumCC z * y - sumCD z)) + quadForm z u w := by
  induction z with
  | nil => simp [ssr, quadForm]
  | cons r z ih =>
    unfold ssr quadForm at ih ⊢
    simp only [List.map_cons, List.sum_cons, ih, sumAA_cons, sumAC_cons, sumCC_cons,
      sumAD_cons, sumCD_cons]
    ring

/-- A solution of the normal equations minimises the sum of squared residuals. -/
theorem isLeastSquares_of_normalEq (z : Eqns) (v : ℚ × ℚ) (h : NormalEq z v) :
    IsLeastSquares z v := by
  intro w
  have e := ssr_shift z v.1 v.2 (w.1 - v.1) (w.2 - v.2)
  have hq := quadForm_nonneg z (w.1 - v.1) (w.2 - v.2)
  obtain ⟨h1, h2⟩ := h
  rw [add_sub_cancel, add_sub_cancel, h1, h2] at e
  rw [e]
  linarith

theorem sq_sum_eq_zero (z : Eqns) (f : (ℚ × ℚ) × ℚ → ℚ)
    (h : (z.map (fun r => f r ^ 2)).sum = 0) : ∀ r ∈ z, f r = 0 := by
  induction z with
  | nil => intro r hr; simp at hr
  | cons s z ih =>
    simp only [List.map_cons, List.sum_cons] at h
    have h1 : 0 ≤ f s ^ 2 := by positivity
    have h2 : 0 ≤ (z.map (fun r => f r ^ 2)).sum := by
      apply List.sum_nonneg
      intro t ht
      obtain ⟨u, _, rfl⟩ := List.mem_map.mp ht
      positivity
    have h3 : f s ^ 2 = 0 := by linarith
    have h4 : (z.map (fun r => f r ^ 2)).sum = 0 := by linarith
    intro r hr
    rcases List.mem_cons.mp hr with rfl | hr
    · exact pow_eq_zero_iff (by norm_num) |>.mp h3
    · exact ih h4 r hr

/-- When `AᵀA` is singular every row is an eigenvector of `AᵀA` for the eigenvalue
`tr AᵀA`. -/
theorem rows_of_det_zero (z : Eqns) (hdet : detAtA z = 0) :
    ∀ r ∈ z, r.1.1 * sumAC z = r.1.2 * sumAA z ∧ r.1.1 * sumCC z = r.1.2 * sumAC z := by
  have hd : sumAA z * sumCC z - sumAC z * sumAC z = 0 := hdet
  have q1 : quadForm z (sumAC z) (-sumAA z) = 0 := by
    rw [quadForm_eq]; linear_combination sumAA z * hd
  have q2 : quadForm z (sumCC z) (-sumAC z) = 0 := by
    rw [quadForm_eq]; linear_combination sumCC z * hd
  intro r hr
  have e1 := sq_sum_eq_zero z (fun r => r.1.1 * sumAC z + r.1.2 * -sumAA z) q1 r hr
  have e2 := sq_sum_eq_zero z (fun r => r.1.1 * sumCC z + r.1.2 * -sumAC z) q2 r hr
  simp only at e1 e2
  constructor <;> linarith

theorem lin_sum (z : Eqns) (α β : ℚ) :
    (z.map (fun r => (α * r.1.1 + β * r.1.2) * r.2)).sum = α * sumAD z + β * sumCD z := by
  induction z with
  | nil => simp
  | cons r z ih =>
    simp only [List.map_cons, List.sum_cons, ih, sumAD_cons, sumCD_cons]
    ring

/-- When `AᵀA` is singular, `Aᵀb` is an eigenvector of `AᵀA` for the eigenvalue `tr AᵀA`. -/
theorem rhs_of_det_zero (z : Eqns) (hdet : detAtA z = 0) :
    sumAA z * sumAD z + sumAC z * sumCD z = (sumAA z + sumCC z) * sumAD z ∧
    sumAC z * sumAD z + sumCC z * sumCD z = (sumAA z + sumCC z) * sumCD z := by
  have hr := rows_of_det_zero z hdet
  have e1 : (sumAA z + sumCC z) * sumAD z = (sumAA z + sumCC z) * sumAD z + 0 * sumCD z := by
    ring
  have e2 : (sumAA z + sumCC z) * sumCD z = 0 * sumAD z + (sumAA z + sumCC z) * sumCD z := by
    ring
  constructor
  · rw [e1, ← lin_sum z (sumAA z) (sumAC z), ← lin_sum z (sumAA z + sumCC z) 0]
    congr 1
    apply List.map_congr_left
    intro r hrz
    obtain ⟨_, h2⟩ := hr r hrz
    linear_combination -r.2 * h2
  · rw [e2, ← lin_sum z (sumAC z) (sumCC z), ← lin_sum z 0 (sumAA z + sumCC z)]
    congr 1
    apply List.map_congr_left
    intro r hrz
    obtain ⟨h1, _⟩ := hr r hrz
    linear_combination r.2 * h1

theorem sumAA_nonneg (z : Eqns) : 0 ≤ sumAA z := by
  apply List.sum_nonneg
  intro t ht
  obtain ⟨s, _, rfl⟩ := List.mem_map.mp ht
  exact mul_self_nonneg _

theorem sumCC_nonneg (z : Eqns) : 0 ≤ sumCC z := by
  apply List.sum_nonneg
  intro t ht
  obtain ⟨s, _, rfl⟩ := List.mem_map.mp ht
  exact mul_self_nonneg _

/-- When `AᵀA` is invertible the normal equations have one solution only. -/
theorem lstsq_of_normal (z : Eqns) (w : ℚ × ℚ) (hw : NormalEq z w) (hdet : detAtA z ≠ 0) :
    lstsq z = w := by
  obtain ⟨w1, w2⟩ := hw
  unfold lstsq
  rw [if_pos hdet, ← w1, ← w2]
  have hd : detAtA z = sumAA z * sumCC z - sumAC z * sumAC z := rfl
  refine Prod.ext ?_ ?_
  · simp only
    rw [div_eq_iff hdet, hd]; ring
  · simp only
    rw [div_eq_iff hdet, hd]; ring

/-- The modelled solver returns a solution of the normal equations. -/
theorem lstsq_normalEq (z : Eqns) : NormalEq z (lstsq z) := by
  unfold NormalEq lstsq
  by_cases hdet : detAtA z = 0
  · rw [if_neg (not_not.mpr hdet)]
    obtain ⟨g1, g2⟩ := rhs_of_det_zero z hdet
    simp only
    rw [g1, g2]
    by_cases ht : sumAA z + sumCC z = 0
    · have hA : sumAA z = 0 := by linarith [sumAA_nonneg z, sumCC_nonneg z]
      have hC : sumCC z = 0 := by linarith [sumAA_nonneg z, sumCC_nonneg z]
      have ha : ∀ r ∈ z, r.1.1 = 0 :=
        sq_sum_eq_zero z (fun r => r.1.1) (by simpa [sumAA, sq] using hA)
      have hc : ∀ r ∈ z, r.1.2 = 0 :=
        sq_sum_eq_zero z (fun r => r.1.2) (by simpa [sumCC, sq] using hC)
      have hAD : sumAD z = 0 := by
        apply List.sum_eq_zero
        intro t ht
        obtain ⟨r, hr, rfl⟩ := List.mem_map.mp ht
        simp [ha r hr]
      have hCD : sumCD z = 0 := by
        apply List.sum_eq_zero
        intro t ht
        obtain ⟨r, hr, rfl⟩ := List.mem_map.mp ht
        simp [hc r hr]
      simp [hA, hC, hAD, hCD]
    · constructor
      · field_simp
        linear_combination (sumAA z + sumCC z) * g1
      · field_simp
        linear_combination (sumAA z + sumCC z) * g2
  · rw [if_pos hdet]
    have hd : detAtA z = sumAA z * sumCC z - sumAC z * sumAC z := rfl
    simp only
    constructor
    · field_simp; rw [hd]; ring
    · field_simp; rw [hd]; ring

/-- The modelled solver returns a minimiser of `‖A v − b‖²`. -/
theorem lstsq_isLeastSquares (z : Eqns) : IsLeastSquares z (lstsq z) :=
  isLeastSquares_of_normalEq z (lstsq z) (lstsq_normalEq z)

/-- Among the solutions of the normal equations the modelled solver returns one of least
norm. -/
theorem lstsq_least_norm (z : Eqns) (w : ℚ × ℚ) (hw : NormalEq z w) :
    (lstsq z).1 ^ 2 + (lstsq z).2 ^ 2 ≤ w.1 ^ 2 + w.2 ^ 2 := by
  obtain ⟨w1, w2⟩ := hw
  by_cases hdet : detAtA z = 0
  · obtain ⟨g1, g2⟩ := rhs_of_det_zero z hdet
    have hd : sumAA z * sumCC z - sumAC z * sumAC z = 0 := hdet
    have hv : lstsq z =
        ((sumAA z * sumAD z + sumAC z * sumCD z) / ((sumAA z + sumCC z) * (sumAA z + sumCC z)),
         (sumAC z * sumAD z + sumCC z * sumCD z) / ((sumAA z + sumCC z) * (sumAA z + sumCC z))) := by
      unfold lstsq
      rw [if_neg (not_not.mpr hdet)]
    rw [hv]
    simp only
    by_cases ht : sumAA z + sumCC z = 0
    · rw [ht]; simp; positivity
    · rw [g1, g2]
      have e1 : (sumAA z + sumCC z) * sumAD z / ((sumAA z + sumCC z) * (sumAA z + sumCC z)) =
          sumAD z / (sumAA z + sumCC z) := by field_simp; ring
      have e2 : (sumAA z + sumCC z) * sumCD z / ((sumAA z + sumCC z) * (sumAA z + sumCC z)) =
          sumCD z / (sumAA z + sumCC z) := by field_simp; ring
      rw [e1, e2]
      set t := sumAA z + sumCC z with htdef
      -- the returned point is orthogonal to the difference
      have key : t * (sumAD z * w.1 + sumCD z * w.2) = sumAD z ^ 2 + sumCD z ^ 2 := by
        linear_combination sumAD z * w1 + sumCD z * w2 - w.1 * g1 - w.2 * g2
      have orth : (sumAD z / t) * (w.1 - sumAD z / t) + (sumCD z / t) * (w.2 - sumCD z / t) = 0 := by
        have e : (sumAD z / t) * (w.1 - sumAD z / t) + (sumCD z / t) * (w.2 - sumCD z / t) =
            (t * (sumAD z * w.1 + sumCD z * w.2) - (sumAD z ^ 2 + sumCD z ^ 2)) / (t * t) := by
          field_simp
          ring
        rw [e, key, sub_self, zero_div]
      nlinarith [sq_nonneg (w.1 - sumAD z / t), sq_nonneg (w.2 - sumCD z / t)]
  · have h := lstsq_of_normal z w ⟨w1, w2⟩ hdet
    rw [h]

/-- A minimiser of `‖A v − b‖²` solves the normal equations. -/
theorem normalEq_of_isLeastSquares (z : Eqns) (v : ℚ × ℚ) (h : IsLeastSquares z v) :
    NormalEq z v := by
  set g1 := sumAA z * v.1 + sumAC z * v.2 - sumAD z with hg1
  set g2 := sumAC z * v.1 + sumCC z * v.2 - sumCD z with hg2
  set q := quadForm z g1 g2 with hq
  have hq0 : 0 ≤ q := quadForm_nonneg z g1 g2
  have hpos : 0 < q + 1 := by linarith
  set s := (g1 ^ 2 + g2 ^ 2) / (q + 1) with hs
  have e := ssr_shift z v.1 v.2 (-(s * g1)) (-(s * g2))
  have hquad : quadForm z (-(s * g1)) (-(s * g2)) = s ^ 2 * q := by
    rw [hq, quadForm_eq, quadForm_eq]; ring
  have hmin := h (v.1 + -(s * g1), v.2 + -(s * g2))
  simp only at hmin
  rw [e, hquad, ← hg1, ← hg2] at hmin
  have hineq : 0 ≤ s * (s * q - 2 * (g1 ^ 2 + g2 ^ 2)) := by nlinarith
  have hG : g1 ^ 2 + g2 ^ 2 = 0 := by
    by_contra hne
    have hGpos : 0 < g1 ^ 2 + g2 ^ 2 := lt_of_le_of_ne (by positivity) (Ne.symm hne)
    have hspos : 0 < s := div_pos hGpos hpos
    have hsq : s * q < g1 ^ 2 + g2 ^ 2 := by
      rw [hs, div_mul_eq_mul_div, div_lt_iff₀ hpos]
      nlinarith
    have : s * (s * q - 2 * (g1 ^ 2 + g2 ^ 2)) < 0 := by
      apply mul_neg_of_pos_of_neg hspos
      linarith
    linarith
  have h1 : g1 = 0 := by nlinarith [sq_nonneg g1, sq_nonneg g2]
  have h2 : g2 = 0 := by nlinarith [sq_nonneg g1, sq_nonneg g2]
  constructor
  · linarith
  · linarith

/-- Among all minimisers of `‖A v − b‖²` the modelled solver returns one of least norm. -/
theorem lstsq_least_norm_of_isLeastSquares (z : Eqns) (w : ℚ × ℚ) (hw : IsLeastSquares z w) :
    (lstsq z).1 ^ 2 + (lstsq z).2 ^ 2 ≤ w.1 ^ 2 + w.2 ^ 2 :=
  lstsq_least_norm z w (normalEq_of_isLeastSquares z w hw)

/-- The vertical branch under binary32: the abscissa is stored unchanged when its
magnitude is at most `2 ^ 24`. -/
theorem constraintRow_f32_of_eq (l : Vec4i) (hx : l.x1 = l.x2) (hk : |l.x1| ≤ 2 ^ 24) :
    constraintRow f32 l = { a := 1, c := 0, d := (l.x1 : ℚ) } := by
  rw [constraintRow_of_eq f32 l hx, f32_intCast l.x1 hk]

/-! ## The claims -/

/-- C1 (amended): for every segment with `p1.x ≠ p2.x` whose row is computed without
rounding error (always so in exact arithmetic), the stored row is
`(-m, 1, p1.y - m * p1.x)` with `m = (p1.y - p2.y) / (p1.x - p2.x)`, and both end points
satisfy the equation of the row exactly. -/
theorem nonvertical_row_exact (fl : ℚ → ℚ) (l : Vec4i) (hx : l.x1 ≠ l.x2)
    (hfl : RoundsExactly fl l) :
    constraintRow fl l =
      { a := -(((l.y1 : ℚ) - l.y2) / ((l.x1 : ℚ) - l.x2)), c := 1,
        d := (l.y1 : ℚ) - ((l.y1 : ℚ) - l.y2) / ((l.x1 : ℚ) - l.x2) * l.x1 } ∧
    (constraintRow fl l).a * l.x1 + (constraintRow fl l).c * l.y1 = (constraintRow fl l).d ∧
    (constraintRow fl l).a * l.x2 + (constraintRow fl l).c * l.y2 = (constraintRow fl l).d := by
  have hne := cast_sub_ne_zero hx
  unfold RoundsExactly at hfl
  rw [hfl, constraintRow_id_of_ne l hx]
  refine ⟨rfl, ?_, ?_⟩
  · simp only; ring
  · simp only; field_simp; ring

/-- C1, an instance of the amended claim: the binary32 row of the segment from `(0,0)` to
`(10,10)` is computed exactly, and both end points lie on it. -/
theorem nonvertical_row_exact_witness :
    (diagUp.x1 ≠ diagUp.x2 ∧ RoundsExactly f32 diagUp) ∧
    (constraintRow f32 diagUp).a * diagUp.x1 + (constraintRow f32 diagUp).c * diagUp.y1 =
      (constraintRow f32 diagUp).d ∧
    (constraintRow f32 diagUp).a * diagUp.x2 + (constraintRow f32 diagUp).c * diagUp.y2 =
      (constraintRow f32 diagUp).d :=
  ⟨⟨by decide, by decide!⟩,
   (nonvertical_row_exact f32 diagUp (by decide) (by decide!)).2⟩

/-- C1 fails as stated: for the segment from `(0,0)` to `(107,1)` the stored coefficient
is not `-(p1.y - p2.y) / (p1.x - p2.x)`, the second end point does not satisfy the stored
equation, and it does not satisfy it either when the left side is itself evaluated in
binary32, with a rounding after each operation or with a single rounding at the end. -/
theorem nonvertical_row_rounds :
    shallow.x1 ≠ shallow.x2 ∧
    (constraintRow f32 shallow).a ≠
      -(((shallow.y1 : ℚ) - shallow.y2) / ((shallow.x1 : ℚ) - shallow.x2)) ∧
    (constraintRow f32 shallow).a * shallow.x2 + (constraintRow f32 shallow).c * shallow.y2 ≠
      (constraintRow f32 shallow).d ∧
    f32 (f32 ((constraintRow f32 shallow).a * f32 shallow.x2) +
        f32 ((constraintRow f32 shallow).c * f32 shallow.y2)) ≠ (constraintRow f32 shallow).d ∧
    f32 ((constraintRow f32 shallow).a * shallow.x2 + (constraintRow f32 shallow).c * shallow.y2) ≠
      (constraintRow f32 shallow).d := by
  decide!

/-- C2 (amended): for every segment with `p1.x = p2.x = k` and `|k| ≤ 2 ^ 24`, the
zero-length segment included, the stored row is exactly `(1, 0, k)`, whatever the
ordinates are. -/
theorem vertical_row (l : Vec4i) (hx : l.x1 = l.x2) (hk : |l.x1| ≤ 2 ^ 24) :
    constraintRow f32 l = { a := 1, c := 0, d := (l.x1 : ℚ) } :=
  constraintRow_f32_of_eq l hx hk

/-- C2, an instance of the amended claim: the segment from `(5,0)` to `(5,10)` gives the
row `(1, 0, 5)`. -/
theorem vertical_row_witness :
    (vert5.x1 = vert5.x2 ∧ |vert5.x1| ≤ 2 ^ 24) ∧
    constraintRow f32 vert5 = { a := 1, c := 0, d := (vert5.x1 : ℚ) } :=
  ⟨by decide, vertical_row vert5 (by decide) (by decide)⟩

/-- C2 fails as stated: for the vertical segment at `k = 2 ^ 24 + 1 = 16777217` the
stored right-hand side is `16777216`, the nearest binary32 number, so the row is not
`(1, 0, k)`. -/
theorem vertical_row_large :
    vertLarge.x1 = vertLarge.x2 ∧
    constraintRow f32 vertLarge = { a := 1, c := 0, d := 16777216 } ∧
    constraintRow f32 vertLarge ≠ { a := 1, c := 0, d := (vertLarge.x1 : ℚ) } := by
  decide!

/-- C3 fails on the code: for three segments on `y = 120`, `x = 90` and `y = 2 x` the
computed point is `(70, 130)`, a minimiser of the sum of squared residuals of the rows,
but the sum of squared perpendicular distances to the three lines is `520` there and only
`360` at `(78, 126)`. -/
theorem not_perpendicular_least_squares :
    solveV f32 skewLines = .ok (70, 130) ∧
    estimate f32 skewLines = .ok ⟨70, 130⟩ ∧
    IsLeastSquares (eqns f32 skewLines) (70, 130) ∧
    sumPerpDistSq skewLines (70, 130) = 520 ∧
    sumPerpDistSq skewLines (78, 126) = 360 ∧
    ¬ (∀ w : ℚ × ℚ, sumPerpDistSq skewLines (70, 130) ≤ sumPerpDistSq skewLines w) := by
  have h1 : solveV f32 skewLines = .ok (70, 130) := by decide!
  have h2 : estimate f32 skewLines = .ok ⟨70, 130⟩ := by decide!
  have h3 : lstsq (eqns f32 skewLines) = (70, 130) := by decide!
  have h4 : sumPerpDistSq skewLines (70, 130) = 520 := by decide!
  have h5 : sumPerpDistSq skewLines (78, 126) = 360 := by decide!
  refine ⟨h1, h2, ?_, h4, h5, ?_⟩
  · rw [← h3]; exact lstsq_isLeastSquares _
  · intro h
    have := h (78, 126)
    rw [h4, h5] at this
    norm_num at this

/-- C4 (amended): for two segments that are not vertical and not parallel, whose rows are
computed without rounding error and whose lines meet at a point `Q` that `v` can hold,
the solved vector is `Q` and the solution point is `Q` with the fractional parts of its
coordinates discarded, which is `Q` itself when its coordinates are integers; for
`((0,0),(10,10))` and `((0,10),(10,0))` the solution point is `(5, 5)`. -/
theorem two_lines_intersection (fl : ℚ → ℚ) (l1 l2 : Vec4i) (Q : ℚ × ℚ)
    (h1 : l1.x1 ≠ l1.x2) (h2 : l2.x1 ≠ l2.x2) (hnp : ¬ Parallel l1 l2)
    (hQ1 : PassesThrough l1 Q) (hQ2 : PassesThrough l2 Q)
    (hex1 : RoundsExactly fl l1) (hex2 : RoundsExactly fl l2)
    (hfl : fl Q.1 = Q.1 ∧ fl Q.2 = Q.2) :
    solveV fl [l1, l2] = .ok Q ∧
    estimate fl [l1, l2] = .ok ⟨truncate Q.1, truncate Q.2⟩ ∧
    (∀ m n : Int, Q = ((m : ℚ), (n : ℚ)) → estimate fl [l1, l2] = .ok ⟨m, n⟩) ∧
    estimate f32 [diagUp, diagDown] = .ok ⟨5, 5⟩ := by
  have hv : solveV fl [l1, l2] = .ok Q := by
    apply solveV_of_concurrent fl [l1, l2] Q
    · intro l hl
      rcases List.mem_pair.mp hl with rfl | rfl
      · exact hex1
      · exact hex2
    · intro l hl
      rcases List.mem_pair.mp hl with rfl | rfl
      · exact hQ1
      · exact hQ2
    · exact ⟨l1, by simp, l2, by simp, hnp⟩
    · exact hfl
  have he : estimate fl [l1, l2] = .ok ⟨truncate Q.1, truncate Q.2⟩ := by
    unfold estimate
    rw [hv]
    rfl
  refine ⟨hv, he, ?_, by decide!⟩
  intro m n hmn
  rw [he, hmn]
  simp only [truncate_intCast]

/-- C4, an instance of the amended claim: the two diagonals of the square with corners
`(0,0)` and `(10,10)` meet at `(5, 5)`, which is the solved vector and the solution
point. -/
theorem two_lines_intersection_witness :
    (diagUp.x1 ≠ diagUp.x2 ∧ diagDown.x1 ≠ diagDown.x2 ∧ ¬ Parallel diagUp diagDown ∧
      PassesThrough diagUp (5, 5) ∧ PassesThrough diagDown (5, 5) ∧
      RoundsExactly f32 diagUp ∧ RoundsExactly f32 diagDown ∧ f32 5 = 5) ∧
    solveV f32 [diagUp, diagDown] = .ok (5, 5) ∧
    estimate f32 [diagUp, diagDown] = .ok ⟨truncate 5, truncate 5⟩ :=
  ⟨by decide!,
   (two_lines_intersection f32 diagUp diagDown (5, 5) (by decide) (by decide) (by decide)
      (by decide!) (by decide!) (by decide!) (by decide!) ⟨by decide!, by decide!⟩).1,
   (two_lines_intersection f32 diagUp diagDown (5, 5) (by decide) (by decide) (by decide)
      (by decide!) (by decide!) (by decide!) (by decide!) ⟨by decide!, by decide!⟩).2.1⟩

/-- C4 fails as stated, in two ways.  The lines of `((0,0),(200,200))` and
`((1,100),(101,0))` meet at `(50.5, 50.5)` and the solution point is `(50, 50)`.  The
lines of `((34,221),(106,89))` and `((52,148),(124,76))` meet at `(100, 100)`, the slope
`-11/6` is rounded, and the solution point of the stored rows is `(100, 99)`. -/
theorem two_lines_not_recovered :
    (PassesThrough ⟨0, 0, 200, 200⟩ (101 / 2, 101 / 2) ∧
      PassesThrough ⟨1, 100, 101, 0⟩ (101 / 2, 101 / 2) ∧
      ¬ Parallel ⟨0, 0, 200, 200⟩ ⟨1, 100, 101, 0⟩ ∧
      estimate f32 [⟨0, 0, 200, 200⟩, ⟨1, 100, 101, 0⟩] = .ok ⟨50, 50⟩) ∧
    (PassesThrough ⟨34, 221, 106, 89⟩ (100, 100) ∧
      PassesThrough ⟨52, 148, 124, 76⟩ (100, 100) ∧
      ¬ Parallel ⟨34, 221, 106, 89⟩ ⟨52, 148, 124, 76⟩ ∧
      estimate f32 [⟨34, 221, 106, 89⟩, ⟨52, 148, 124, 76⟩] = .ok ⟨100, 99⟩) := by
  decide!

/-- C5 (amended): for every list of segments, two of which are not parallel, whose rows
are computed without rounding error and whose lines all pass through a point `Q` that `v`
can hold, the solved vector is `Q` and every row has zero residual at `Q`; this covers
every number of segments from two on. -/
theorem concurrent_lines (fl : ℚ → ℚ) (lines : List Vec4i) (Q : ℚ × ℚ)
    (hex : ∀ l ∈ lines, RoundsExactly fl l) (hQ : ∀ l ∈ lines, PassesThrough l Q)
    (hnp : ∃ l ∈ lines, ∃ l' ∈ lines, ¬ Parallel l l')
    (hfl : fl Q.1 = Q.1 ∧ fl Q.2 = Q.2) :
    solveV fl lines = .ok Q ∧
    ∀ l ∈ lines,
      (constraintRow fl l).a * Q.1 + (constraintRow fl l).c * Q.2 - (constraintRow fl l).d = 0 :=
  ⟨solveV_of_concurrent fl lines Q hex hQ hnp hfl,
   fun l hl => sub_eq_zero.mpr (row_at_point fl l Q (hex l hl) (hQ l hl))⟩

/-- C5, an instance of the amended claim: three segments through `(5, 5)`, two diagonal
and one vertical, give the solved vector `(5, 5)`. -/
theorem concurrent_lines_witness :
    (3 ≤ [diagUp, diagDown, vert5].length ∧
      PassesThrough diagUp (5, 5) ∧ PassesThrough diagDown (5, 5) ∧
      PassesThrough vert5 (5, 5) ∧ RoundsExactly f32 diagUp ∧ RoundsExactly f32 diagDown ∧
      RoundsExactly f32 vert5 ∧ ¬ Parallel diagUp diagDown ∧ f32 5 = 5) ∧
    solveV f32 [diagUp, diagDown, vert5] = .ok (5, 5) :=
  ⟨by decide!,
   (concurrent_lines f32 [diagUp, diagDown, vert5] (5, 5) (by decide!) (by decide!)
      ⟨diagUp, by simp, diagDown, by simp, by decide⟩ ⟨by decide!, by decide!⟩).1⟩

/-- C5 fails as stated, in three ways.  Three copies of a segment on `y = 100` have the
common point `(50, 100)`, yet the solved vector is `(0, 100)`, in binary32 and in exact
arithmetic.  Three segments through `(100, 100)`, one of slope `-11/6`, give rows that do
not all vanish at `(100, 100)`.  Three segments with exactly computed rows through
`(100/3, 100/3)` give a solved vector that differs from that point. -/
theorem concurrent_lines_not_recovered :
    (3 ≤ sameLines.length ∧ (∀ l ∈ sameLines, PassesThrough l (50, 100)) ∧
      solveV f32 sameLines = .ok (0, 100) ∧ solveV id sameLines = .ok (0, 100)) ∧
    (3 ≤ fanLines.length ∧ (∀ l ∈ fanLines, PassesThrough l (100, 100)) ∧
      ¬ ∀ l ∈ fanLines, (constraintRow f32 l).a * 100 + (constraintRow f32 l).c * 100 -
          (constraintRow f32 l).d = 0) ∧
    (3 ≤ thirdLines.length ∧ (∀ l ∈ thirdLines, PassesThrough l (100 / 3, 100 / 3)) ∧
      (∀ l ∈ thirdLines, RoundsExactly f32 l) ∧
      solveV f32 thirdLines ≠ .ok (100 / 3, 100 / 3)) := by
  decide!

/-- C6: for the empty list of segments the system has no rows and the estimation step
fails with `InsufficientData`, so that there is no solution point to print or draw. -/
theorem empty_input (fl : ℚ → ℚ) :
    (buildSystem fl []).A = [] ∧ (buildSystem fl []).b = [] ∧
    solveV fl [] = .error .InsufficientData ∧
    estimate fl [] = .error .InsufficientData :=
  ⟨rfl, rfl, rfl, rfl⟩

/-- C7 (amended): for every vertical segment on `x = k` and every horizontal segment on
`y = c` with `|k| ≤ 2 ^ 24` and `|c| ≤ 2 ^ 24`, the solved vector of the two-segment list
is exactly `(k, c)`; for `((5,0),(5,10))` and `((0,3),(10,3))` it is `(5, 3)`. -/
theorem vertical_and_horizontal (v h : Vec4i) (hv : v.x1 = v.x2) (hh : h.y1 = h.y2)
    (hx : h.x1 ≠ h.x2) (hk : |v.x1| ≤ 2 ^ 24) (hc : |h.y1| ≤ 2 ^ 24) :
    solveV f32 [v, h] = .ok ((v.x1 : ℚ), (h.y1 : ℚ)) ∧
    solveV f32 [vert5, horiz3] = .ok (5, 3) := by
  have f0 : f32 0 = 0 := by simp [f32]
  have rv : constraintRow f32 v = { a := 1, c := 0, d := (v.x1 : ℚ) } :=
    constraintRow_f32_of_eq v hv hk
  have rh : constraintRow f32 h = { a := 0, c := 1, d := (h.y1 : ℚ) } := by
    simp [constraintRow, slope, pt1, pt2, hx, hh, f0, f32_intCast h.y2 (hh ▸ hc)]
  refine ⟨?_, by decide!⟩
  rw [solveV_eq, eqns_eq]
  simp only [List.map_cons, List.map_nil, rv, rh, Row.eqn]
  simp [lstsq, detAtA, f32_intCast v.x1 hk, f32_intCast h.y1 hc]

/-- C7, an instance of the amended claim: the segments `((5,0),(5,10))` and
`((0,3),(10,3))` give the solved vector `(5, 3)`. -/
theorem vertical_and_horizontal_witness :
    (vert5.x1 = vert5.x2 ∧ horiz3.y1 = horiz3.y2 ∧ horiz3.x1 ≠ horiz3.x2 ∧
      |vert5.x1| ≤ 2 ^ 24 ∧ |horiz3.y1| ≤ 2 ^ 24) ∧
    solveV f32 [vert5, horiz3] = .ok ((vert5.x1 : ℚ), (horiz3.y1 : ℚ)) :=
  ⟨by decide,
   (vertical_and_horizontal vert5 horiz3 (by decide) (by decide) (by decide) (by decide)
      (by decide)).1⟩

/-- C7 fails as stated, in two ways.  With the vertical segment at `k = 16777217` and the
horizontal one on `y = 3` the solved vector is `(16777216, 3)`, not `(k, 3)`.  With the
vertical segment at `x = 5` and a zero-length segment at `(7, 3)`, which lies on `y = 3`
and is taken for a vertical one by the loop, the solved vector is `(6, 0)`. -/
theorem vertical_and_horizontal_large :
    (vertLarge.x1 = vertLarge.x2 ∧ horiz3.y1 = horiz3.y2 ∧ horiz3.x1 ≠ horiz3.x2 ∧
      solveV f32 [vertLarge, horiz3] = .ok (16777216, 3) ∧
      solveV f32 [vertLarge, horiz3] ≠ .ok ((vertLarge.x1 : ℚ), (horiz3.y1 : ℚ))) ∧
    (vert5.x1 = vert5.x2 ∧ dot73.y1 = dot73.y2 ∧
      solveV f32 [vert5, dot73] = .ok (6, 0) ∧
      solveV f32 [vert5, dot73] ≠ .ok ((vert5.x1 : ℚ), (dot73.y1 : ℚ))) := by
  decide!

/-- C8: for every list of segments the loop leaves `A` and `b` with as many rows as
there are segments, row `i` of `A` and entry `i` of `b` hold the constraint computed
from the `i`-th segment, and after `k` iterations the counter `n` equals the number of
segments processed (`k`, or all of them when `k` exceeds the list). -/
theorem constraint_loop_rows (fl : ℚ → ℚ) (lines : List Vec4i) :
    (buildSystem fl lines).A.length = lines.length ∧
    (buildSystem fl lines).b.length = lines.length ∧
    (∀ i : Nat, (buildSystem fl lines).A[i]? =
        lines[i]?.map (fun l => ((constraintRow fl l).a, (constraintRow fl l).c))) ∧
    (∀ i : Nat, (buildSystem fl lines).b[i]? = lines[i]?.map (fun l => (constraintRow fl l).d)) ∧
    (∀ k : Nat, (loopAfter fl lines k).n = min k lines.length) := by
  obtain ⟨_, hA, hb⟩ := buildSystem_eq fl lines
  refine ⟨by simp [hA], by simp [hb], ?_, ?_, fun k => (loopAfter_eq fl lines k).1⟩
  · intro i; rw [hA]; simp [Row.coeffs]
  · intro i; rw [hb]; simp

/-- C9: for every list of segments and every permutation of it, the sum of squared
residuals of the two systems agree at every point, the two systems have the same
least-squares minimisers, and the solved vector and the solution point are the same. -/
theorem segment_order_irrelevant (fl : ℚ → ℚ) (lines lines' : List Vec4i)
    (h : lines.Perm lines') :
    (∀ x y : ℚ, ssr (eqns fl lines) x y = ssr (eqns fl lines') x y) ∧
    (∀ v : ℚ × ℚ, IsLeastSquares (eqns fl lines) v ↔ IsLeastSquares (eqns fl lines') v) ∧
    solveV fl lines = solveV fl lines' ∧
    estimate fl lines = estimate fl lines' := by
  have hz : (eqns fl lines).Perm (eqns fl lines') := by
    rw [eqns_eq, eqns_eq]; exact h.map _
  have hs : ∀ x y : ℚ, ssr (eqns fl lines) x y = ssr (eqns fl lines') x y :=
    fun x y => ssr_perm hz x y
  have hv : solveV fl lines = solveV fl lines' := by
    rw [solveV_eq, solveV_eq, lstsq_perm hz]
    by_cases hl : lines = []
    · subst hl
      have : lines' = [] := List.perm_nil.mp h.symm
      simp [this]
    · have : lines' ≠ [] := fun e => hl (by subst e; exact List.perm_nil.mp h)
      simp [hl, this]
  refine ⟨hs, ?_, hv, ?_⟩
  · intro v
    unfold IsLeastSquares
    simp only [hs]
  · unfold estimate
    rw [hv]

/-- C9, an instance: three segments taken in two different orders give the same solved
vector. -/
theorem segment_order_irrelevant_witness :
    [diagUp, shallow, vert5].Perm [vert5, diagUp, shallow] ∧
    solveV f32 [diagUp, shallow, vert5] = solveV f32 [vert5, diagUp, shallow] :=
  ⟨by decide,
   (segment_order_irrelevant f32 [diagUp, shallow, vert5] [vert5, diagUp, shallow]
      (by decide)).2.2.1⟩

/-- C10: in exact arithmetic the row of a segment does not depend on the order of its
two end points. -/
theorem row_endpoint_order (l : Vec4i) : constraintRow id l.swap = constraintRow id l := by
  by_cases h : l.x1 = l.x2
  · rw [constraintRow_of_eq id l h, constraintRow_of_eq id l.swap (by simp [Vec4i.swap, h])]
    simp [Vec4i.swap, h]
  · have h2 : l.swap.x1 ≠ l.swap.x2 := fun e => h (by simpa [Vec4i.swap] using e.symm)
    rw [constraintRow_id_of_ne l h, constraintRow_id_of_ne l.swap h2]
    have hne : (l.x1 : ℚ) - l.x2 ≠ 0 := cast_sub_ne_zero h
    have hne2 : (l.x2 : ℚ) - l.x1 ≠ 0 := by
      intro h0; apply hne; linarith
    simp only [Vec4i.swap, Row.mk.injEq, and_true, neg_inj]
    constructor
    · field_simp; ring
    · field_simp; ring

end DetectLines
